import Mathlib

/-!
Verification of the ffindex_py record store against its specification.

The development shallowly embeds `src/ffindex_py/main.py`:
  * byte sequences are `List Nat` (every byte value fits in `Nat`; the
    sentinel is the byte `0`),
  * text is `List Char` or `String`,
  * fallible code returns `Option` or `Except`,
  * the nondeterministic completion order of the worker pool is an explicit
    list of task results, constrained to be a permutation of the submitted
    tasks in the theorems.
-/

namespace FFindexPy

/-! ## IndexCodec: the tab separated index line format

`read_ffindex` parses a line via `line.split('\t')` into exactly three
fields and converts the last two with Python `int`; `run_apply` and friends
format lines as `f"{name}\t{start}\t{length}\n"`. -/

/-- ASCII whitespace stripped by Python `int(...)` conversion (the Unicode
whitespace code points, irrelevant to index lines, are not modelled). -/
def isPySpace (c : Char) : Bool :=
  c = ' ' || c = '\t' || c = '\n' || c = '\r' || c = '\x0b' || c = '\x0c'

/-- Strip leading and trailing whitespace, as Python `int` does before
reading the digits. -/
def pyStrip (l : List Char) : List Char :=
  ((l.dropWhile isPySpace).reverse.dropWhile isPySpace).reverse

/-- Numeric value of a decimal digit character. -/
def digitVal (c : Char) : Nat := c.toNat - 48

/-- Digits of a Python integer literal after its first digit: decimal
digits where a single underscore may separate two digits (the flag records
that the previous character was an underscore, which must be followed by a
digit). -/
def pyDigitsGo : Bool → List Char → Option (List Nat)
  | afterUnd, [] => if afterUnd then none else some []
  | afterUnd, c :: cs =>
    if c.isDigit then (pyDigitsGo false cs).map (fun ds => digitVal c :: ds)
    else if c = '_' then
      if afterUnd then none else pyDigitsGo true cs
    else none

/-- The digit string accepted by Python `int` (nonempty, starts with a
digit, single underscores allowed between digits). -/
def pyDigits : List Char → Option (List Nat)
  | [] => none
  | c :: cs => if c.isDigit then (pyDigitsGo false cs).map (fun ds => digitVal c :: ds) else none

/-- Value of a big-endian list of decimal digits. -/
def digitsVal (ds : List Nat) : Nat := ds.foldl (fun a d => 10 * a + d) 0

/-- Digit-string part of Python `int` as a natural number. -/
def pyNatCore (l : List Char) : Option Nat := (pyDigits l).map digitsVal

/-- Python `int(s)`: strip whitespace, optional single sign, decimal
digits. -/
def pyInt (l : List Char) : Option Int :=
  match pyStrip l with
  | [] => none
  | c :: rest =>
    if c = '+' then (pyNatCore rest).map (fun n => (n : Int))
    else if c = '-' then (pyNatCore rest).map (fun n => -(n : Int))
    else (pyNatCore (c :: rest)).map (fun n => (n : Int))

/-- Python `line.split('\t')`: split on every tab, keeping empty fields;
splitting the empty string gives one empty field. -/
def splitTabs : List Char → List (List Char)
  | [] => [[]]
  | c :: cs =>
    match splitTabs cs with
    | [] => [[]]
    | f :: fs => if c = '\t' then [] :: f :: fs else (c :: f) :: fs

/-- One line of `read_ffindex`: `name, start, length = line.split('\t')`
followed by `int(start), int(length)`; `none` models the raised
`ValueError` on a wrong field count or a non-integer field. -/
def parseLine (line : List Char) : Option (List Char × Int × Int) :=
  match splitTabs line with
  | [n, s, l] =>
    match pyInt s, pyInt l with
    | some sv, some lv => some (n, sv, lv)
    | _, _ => none
  | _ => none

/-- Decimal digit character of a digit value. -/
def digitChar (d : Nat) : Char := Char.ofNat (48 + d)

/-- Decimal rendering of a natural number, as Python `str` produces inside
an f-string. -/
def natChars (n : Nat) : List Char :=
  if n = 0 then ['0'] else (Nat.digits 10 n).reverse.map digitChar

/-- The index line `f"{name}\t{start}\t{length}\n"` written by the
producers. -/
def formatLine (name : List Char) (s l : Nat) : List Char :=
  name ++ '\t' :: (natChars s ++ '\t' :: (natChars l ++ ['\n']))

/-! ## Reindexer (`run_reindex`)

The scan streams the data file byte by byte (the 1 MiB chunking of the
source is invisible to the byte-level fold) keeping a running `offset` and
a `record_length` that starts at 1, pre-counting the sentinel. -/

/-- The numeric-name scan of `run_reindex` (name parsing off): the emitted
`(offset, record_length)` pairs, one per sentinel byte. -/
def reindexScan : List Nat → Nat → Nat → List (Nat × Nat)
  | [], _, _ => []
  | b :: bs, off, rl =>
    if b = 0 then (off, rl) :: reindexScan bs (off + rl) 1
    else reindexScan bs off (rl + 1)

/-- `run_reindex` without name parsing, on the bytes of the data file. -/
def run_reindex (data : List Nat) : List (Nat × Nat) := reindexScan data 0 1

/-- Final `(offset, record_length)` state of the scan, used to decompose a
scan of concatenated inputs. -/
def scanEnd : List Nat → Nat → Nat → Nat × Nat
  | [], off, rl => (off, rl)
  | b :: bs, off, rl =>
    if b = 0 then scanEnd bs (off + rl) 1 else scanEnd bs off (rl + 1)

/-! ## The store data model (spec section 3)

A store over payloads `ps`: the data file is the concatenation of the
payloads, each followed by one sentinel byte 0, indexed contiguously from
offset 0.  Per the data model and glossary, the sentinel is the record
delimiter of a raw rescan, so a payload of a valid store contains no 0
byte; that validity condition is `validPayloads`. -/

def storeData (ps : List (List Nat)) : List Nat := (ps.map (fun p => p ++ [0])).flatten

def storeIndexFrom : Nat → List (List Nat) → List (Nat × Nat)
  | _, [] => []
  | off, p :: ps => (off, p.length + 1) :: storeIndexFrom (off + (p.length + 1)) ps

def storeIndex (ps : List (List Nat)) : List (Nat × Nat) := storeIndexFrom 0 ps

/-- Payloads of a valid store contain no sentinel byte. -/
def validPayloads (ps : List (List Nat)) : Prop := ∀ p ∈ ps, (0 : Nat) ∉ p

instance (ps : List (List Nat)) : Decidable (validPayloads ps) := by
  unfold validPayloads; infer_instance

/-- Seek-and-read of `start, length` against a data file, as `run_get` and
`apply_to_record` perform it. -/
def readRecord (data : List Nat) (start len : Nat) : List Nat :=
  (data.drop start).take len

/-! ## Reindexer with name parsing (`run_reindex -p`) -/

/-- State of the name-parsing reindex scan: mirrors the local variables
`offset`, `record_length`, `index`, `headers`, `in_header`, `header` of
`run_reindex`, plus the emitted index lines. -/
structure ReState where
  offset : Nat
  recLen : Nat
  idx : Nat
  headers : List (List Char)
  inHeader : Bool
  header : List Char
  out : List (List Char × Nat × Nat)
deriving DecidableEq

/-- Length of the longest name seen so far, a bound used to run the caret
renaming loop to completion. -/
def maxLen (hs : List (List Char)) : Nat := (hs.map List.length).foldr max 0

/-- Fuelled form of the `while header in headers: header += caret` loop of
`run_reindex`; enough fuel always escapes the finite set `hs`. -/
def freshenFuel : Nat → List (List Char) → List Char → List Char
  | 0, _, h => h
  | k + 1, hs, h => if h ∈ hs then freshenFuel k hs (h ++ ['^']) else h

/-- The caret renaming loop with always-sufficient fuel. -/
def freshen (hs : List (List Char)) (h : List Char) : List Char :=
  freshenFuel (maxLen hs + 2) hs h

/-- `header.lstrip('#>')`. -/
def stripMarkers (h : List Char) : List Char :=
  h.dropWhile (fun c => c = '#' || c = '>')

/-- One byte of the name-parsing reindex scan.  A sentinel finalizes the
record: the collected header is stripped of leading markers, an empty name
is fatal, a duplicate name is fatal unless renaming is allowed, in which
case carets are appended until the name is fresh.  A non-sentinel byte
below 33 ends the header; header bytes are collected while still in the
header. -/
def reNamedStep (allowDup : Bool) (st : ReState) (b : Nat) : Except String ReState :=
  if b = 0 then
    let h := stripMarkers st.header
    if h = [] then .error "empty name"
    else if ¬ allowDup ∧ h ∈ st.headers then .error "duplicate name"
    else
      let h2 := freshen st.headers h
      .ok { offset := st.offset + st.recLen, recLen := 1, idx := st.idx + 1,
            headers := st.headers ++ [h2], inHeader := true, header := [],
            out := st.out ++ [(h2, st.offset, st.recLen)] }
  else
    let inH := if b < 33 then false else st.inHeader
    .ok { st with
          inHeader := inH
          header := if inH then st.header ++ [Char.ofNat b] else st.header
          recLen := st.recLen + 1 }

/-- Initial state of the name-parsing reindex scan. -/
def initRe : ReState :=
  { offset := 0, recLen := 1, idx := 0, headers := [], inHeader := true,
    header := [], out := [] }

/-- `run_reindex -p` on the bytes of the data file: the emitted
`(name, offset, length)` lines, or the message of the failed assertion. -/
def run_reindex_named (allowDup : Bool) (data : List Nat) :
    Except String (List (List Char × Nat × Nat)) :=
  (data.foldlM (reNamedStep allowDup) initRe).map ReState.out

/-! ## ApplyEngine (`apply_to_record` and `run_apply`)

The external transformation program is modelled as a pure function from
the record payload to its `(stdout, stderr, returncode)` triple; the
completion order of the thread pool is an explicit list of task results,
which the theorems constrain to be a permutation of the submitted tasks. -/

/-- The `--index-order` policy. -/
inductive IndexOrder | keep | sort | data
deriving DecidableEq

/-- The `--on-error` policy. -/
inductive OnError | exit | ignore | blank | original
deriving DecidableEq

/-- What one future resolves to: the tuple returned by
`apply_to_record`. -/
structure TaskResult where
  name : String
  out : List Nat
  err : List Nat
  rc : Int
deriving DecidableEq

/-- `apply_to_record` on a record payload (the `length - 1` bytes read
before the sentinel): run the command, and on a positive exit code replace
the output with the original payload (`--on-error original`) or with the
empty byte string. -/
def apply_to_record (prog : List Nat → List Nat × List Nat × Int)
    (on_error_original : Bool) (name : String) (payload : List Nat) : TaskResult :=
  let res := prog payload
  { name := name
    out := if res.2.2 > 0 then (if on_error_original then payload else []) else res.1
    err := res.2.1
    rc := res.2.2 }

/-- The tasks submitted by `run_apply`, one per index entry, in index
order (records are identified here by name and payload; reading
`(start, length)` spans from the data file is covered by `readRecord`). -/
def submitted (prog : List Nat → List Nat × List Nat × Int) (onErr : OnError)
    (records : List (String × List Nat)) : List TaskResult :=
  records.map (fun r => apply_to_record prog (onErr = OnError.original) r.1 r.2)

/-- Errors `run_apply` can raise: the rejected configuration, the fatal
transform failure of `--on-error exit`, and the failed end-of-run
assertion on a non-empty pending buffer. -/
inductive ApplyError
  | config : ApplyError
  | transform (name : String) (rc : Int) (err : List Nat) : ApplyError
  | corrupt : ApplyError
deriving DecidableEq

/-- State of the result-consumption loop of `run_apply`: the remaining
target-order queue `names`, the pending buffer `index_buf`, the running
`offset`, the bytes written to the data output, the emitted index lines,
and the diagnostics printed to stderr. -/
structure EngineState where
  queue : List String
  buf : List (String × Nat × Nat)
  offset : Nat
  data : List Nat
  index : List (String × Nat × Nat)
  diag : List (String × Int × List Nat)
deriving DecidableEq

/-- Lookup in the pending buffer (a Python dict keyed by name). -/
def lookupBuf (n : String) : List (String × Nat × Nat) → Option (Nat × Nat)
  | [] => none
  | e :: rest => if e.1 = n then some e.2 else lookupBuf n rest

/-- `index_buf.pop(name)`: remove the binding of a key. -/
def eraseKey (n : String) : List (String × Nat × Nat) → List (String × Nat × Nat)
  | [] => []
  | e :: rest => if e.1 = n then rest else e :: eraseKey n rest

/-- `index_buf[name] = offset, length`: dict assignment, overwriting in
place or appending a fresh key. -/
def insertBuf (n : String) (v : Nat × Nat) : List (String × Nat × Nat) → List (String × Nat × Nat)
  | [] => [(n, v)]
  | e :: rest => if e.1 = n then (n, v) :: rest else e :: insertBuf n v rest

/-- The `while names and names[0] in index_buf` drain loop: pop available
names off the front of the target-order queue, returning the new queue,
the new buffer and the index lines emitted. -/
def drain : List String → List (String × Nat × Nat) →
    List String × List (String × Nat × Nat) × List (String × Nat × Nat)
  | [], buf => ([], buf, [])
  | n :: rest, buf =>
    match lookupBuf n buf with
    | some ol =>
      let r := drain rest (eraseKey n buf)
      (r.1, r.2.1, (n, ol) :: r.2.2)
    | none => (n :: rest, buf, [])

/-- The output part of one iteration of the consumption loop: write the
payload (plus sentinel unless writing a combined stream to stdout), then
either buffer-and-drain (`keep`/`sort`) or emit the index line directly
(`data`), advancing the offset. -/
def writeOut (is_stdout : Bool) (order : IndexOrder) (st : EngineState) (r : TaskResult) :
    EngineState :=
  if is_stdout then { st with data := st.data ++ r.out }
  else
    let len := r.out.length + 1
    let st1 := { st with data := st.data ++ r.out ++ [0] }
    if order ≠ IndexOrder.data then
      let buf1 := insertBuf r.name (st1.offset, len) st1.buf
      let d := drain st1.queue buf1
      { st1 with
        queue := d.1
        buf := d.2.1
        index := st1.index ++ d.2.2
        offset := st1.offset + len }
    else
      { st1 with
        index := st1.index ++ [(r.name, st1.offset, len)]
        offset := st1.offset + len }

/-- One iteration of the consumption loop: a positive exit code is fatal
under `exit`, otherwise reported to stderr and, under `ignore`, the record
is skipped; in every other case the record is written out. -/
def consume (is_stdout : Bool) (order : IndexOrder) (onErr : OnError)
    (st : EngineState) (r : TaskResult) : Except ApplyError EngineState :=
  if r.rc > 0 then
    if onErr = OnError.exit then .error (.transform r.name r.rc r.err)
    else
      let st1 := { st with diag := st.diag ++ [(r.name, r.rc, r.err)] }
      if onErr = OnError.ignore then .ok st1
      else .ok (writeOut is_stdout order st1 r)
  else .ok (writeOut is_stdout order st r)

/-- The whole consumption loop over the completions, in completion
order. -/
def consumeAll (is_stdout : Bool) (order : IndexOrder) (onErr : OnError)
    (st : EngineState) (results : List TaskResult) : Except ApplyError EngineState :=
  results.foldlM (consume is_stdout order onErr) st

/-- Python string comparison on character lists: lexicographic by code
point. -/
def charsLe : List Char → List Char → Bool
  | [], _ => true
  | _ :: _, [] => false
  | a :: as, b :: bs => if a = b then charsLe as bs else decide (a.toNat < b.toNat)

/-- Python string comparison, the order used by `names.sort()`. -/
def strLe (a b : String) : Bool := charsLe a.toList b.toList

/-- The target-order queue: source order for `keep` and `data`, names
sorted ascending (Python `list.sort`, code point order) for `sort`. -/
def targetOrder (order : IndexOrder) (names : List String) : List String :=
  if order = IndexOrder.sort then
    List.insertionSort (fun a b => strLe a b = true) names
  else names

/-- Initial state of the consumption loop. -/
def initState (order : IndexOrder) (names : List String) : EngineState :=
  { queue := targetOrder order names, buf := [], offset := 0, data := [],
    index := [], diag := [] }

/-- `run_apply` given the input record names and the task results in
completion order: reject `keep` with `ignore` up front, consume every
completion, and finally assert that the pending buffer is empty. -/
def run_apply (order : IndexOrder) (onErr : OnError) (is_stdout : Bool)
    (names : List String) (completions : List TaskResult) : Except ApplyError EngineState :=
  if order = IndexOrder.keep ∧ onErr = OnError.ignore then .error .config
  else
    match consumeAll is_stdout order onErr (initState order names) completions with
    | .error e => .error e
    | .ok st => if st.buf = [] then .ok st else .error .corrupt

/-! ## Reindexer lemmas -/

theorem reindexScan_append (xs ys : List Nat) (off rl : Nat) :
    reindexScan (xs ++ ys) off rl =
      reindexScan xs off rl ++
        reindexScan ys (scanEnd xs off rl).1 (scanEnd xs off rl).2 := by
  induction xs generalizing off rl with
  | nil => simp [reindexScan, scanEnd]
  | cons b bs ih =>
    by_cases hb : b = 0
    · simp [reindexScan, scanEnd, hb, ih]
    · simp [reindexScan, scanEnd, hb, ih]

theorem reindexScan_of_no_zero :
    ∀ (ys : List Nat) (off rl : Nat), (0 : Nat) ∉ ys → reindexScan ys off rl = [] := by
  intro ys
  induction ys with
  | nil => intro off rl _; rfl
  | cons b bs ih =>
    intro off rl h
    have hb : b ≠ 0 := fun hb => h (hb ▸ List.mem_cons_self b bs)
    simp only [reindexScan, if_neg hb]
    exact ih off (rl + 1) (fun hm => h (List.mem_cons_of_mem _ hm))

theorem reNamedStep_no_zero :
    ∀ (extra : List Nat) (a : Bool) (st : ReState), (0 : Nat) ∉ extra →
      ∃ st', List.foldlM (reNamedStep a) st extra = .ok st' ∧ st'.out = st.out := by
  intro extra
  induction extra with
  | nil => intro a st _; exact ⟨st, rfl, rfl⟩
  | cons b bs ih =>
    intro a st h
    have hb : b ≠ 0 := fun hb => h (hb ▸ List.mem_cons_self b bs)
    obtain ⟨st', h1, h2⟩ :=
      ih a { st with
             inHeader := if b < 33 then false else st.inHeader
             header := if (if b < 33 then false else st.inHeader) then
                 st.header ++ [Char.ofNat b] else st.header
             recLen := st.recLen + 1 }
        (fun hm => h (List.mem_cons_of_mem _ hm))
    refine ⟨st', ?_, h2⟩
    simp only [List.foldlM_cons, reNamedStep, if_neg hb]
    exact h1

/-- C10: the Reindexer (in both naming modes) emits index entries only for
the sentinel-terminated part of the data file: bytes after the last
sentinel (including a whole file with no sentinel) produce no entry and no
error, so the emitted index equals that of the file truncated just after
its last sentinel. -/
theorem reindex_trailing_bytes (data extra : List Nat) (h : (0 : Nat) ∉ extra) :
    run_reindex (data ++ extra) = run_reindex data ∧
      ∀ allowDup, run_reindex_named allowDup (data ++ extra) =
        run_reindex_named allowDup data := by
  constructor
  · unfold run_reindex
    rw [reindexScan_append, reindexScan_of_no_zero extra _ _ h, List.append_nil]
  · intro a
    unfold run_reindex_named
    rw [List.foldlM_append]
    cases hfold : List.foldlM (reNamedStep a) initRe data with
    | error e => rfl
    | ok st =>
      obtain ⟨st', h1, h2⟩ := reNamedStep_no_zero extra a st h
      show (List.foldlM (reNamedStep a) st extra).map ReState.out =
        (Except.ok st : Except String ReState).map ReState.out
      rw [h1]
      simp [Except.map, h2]

theorem reindex_trailing_bytes_witness :
    (0 : Nat) ∉ [7, 8] ∧ run_reindex ([1, 2, 0, 5, 0] ++ [7, 8]) = run_reindex [1, 2, 0, 5, 0] := by
  refine ⟨by decide, ?_⟩
  exact (reindex_trailing_bytes [1, 2, 0, 5, 0] [7, 8] (by decide)).1

theorem reindexScan_skip :
    ∀ (p bs : List Nat) (off rl : Nat), (0 : Nat) ∉ p →
      reindexScan (p ++ bs) off rl = reindexScan bs off (rl + p.length) := by
  intro p
  induction p with
  | nil => intro bs off rl _; simp
  | cons b p' ih =>
    intro bs off rl h
    have hb : b ≠ 0 := fun hb => h (hb ▸ List.mem_cons_self b p')
    simp only [List.cons_append, reindexScan, if_neg hb, List.append_eq]
    rw [ih bs off (rl + 1) (fun hm => h (List.mem_cons_of_mem _ hm))]
    congr 1
    simp [List.length_cons]
    omega

theorem reindexScan_storeData :
    ∀ (ps : List (List Nat)) (off : Nat), validPayloads ps →
      reindexScan (storeData ps) off 1 = storeIndexFrom off ps := by
  intro ps
  induction ps with
  | nil => intro off _; rfl
  | cons p ps ih =>
    intro off h
    have hp : (0 : Nat) ∉ p := h p (List.mem_cons_self p ps)
    have hps : validPayloads ps := fun q hq => h q (List.mem_cons_of_mem _ hq)
    show reindexScan ((p ++ [0]) ++ storeData ps) off 1 = _
    rw [List.append_assoc, reindexScan_skip p _ off 1 hp, List.singleton_append]
    have hstep : reindexScan (0 :: storeData ps) off (1 + p.length) =
        (off, 1 + p.length) :: reindexScan (storeData ps) (off + (1 + p.length)) 1 := by
      simp [reindexScan]
    rw [hstep, ih _ hps]
    show (off, 1 + p.length) :: storeIndexFrom (off + (1 + p.length)) ps =
      (off, p.length + 1) :: storeIndexFrom (off + (p.length + 1)) ps
    rw [Nat.add_comm 1 p.length]

theorem storeIndexFrom_reads :
    ∀ (ps : List (List Nat)) (pre : List Nat),
      List.Forall₂
        (fun p e => e.2 = p.length + 1 ∧ readRecord (pre ++ storeData ps) e.1 e.2 = p ++ [0])
        ps (storeIndexFrom pre.length ps) := by
  intro ps
  induction ps with
  | nil => intro _; exact List.Forall₂.nil
  | cons p ps ih =>
    intro pre
    refine List.Forall₂.cons ⟨rfl, ?_⟩ ?_
    · show readRecord (pre ++ ((p ++ [0]) ++ storeData ps)) pre.length (p.length + 1) = p ++ [0]
      unfold readRecord
      rw [List.drop_left]
      rw [show p.length + 1 = (p ++ [0]).length by simp]
      rw [List.take_left]
    · have h2 := ih (pre ++ (p ++ [0]))
      have hlen : (pre ++ (p ++ [0])).length = pre.length + (p.length + 1) := by
        simp [List.length_append]
      rw [hlen] at h2
      have harr : (pre ++ (p ++ [0])) ++ storeData ps = pre ++ storeData (p :: ps) := by
        show _ = pre ++ ((p ++ [0]) ++ storeData ps)
        rw [List.append_assoc]
      rw [harr] at h2
      exact h2

/-- C8: for every valid store, reading each indexed record returns exactly
`length - 1` payload bytes followed by one sentinel, and re-running the
Reindexer over the data file yields the same number of records with the
same `(start, length)` pairs as the original index. -/
theorem store_reindex_roundtrip (ps : List (List Nat)) (h : validPayloads ps) :
    run_reindex (storeData ps) = storeIndex ps ∧
      List.Forall₂
        (fun p e => e.2 = p.length + 1 ∧ readRecord (storeData ps) e.1 e.2 = p ++ [0])
        ps (storeIndex ps) := by
  constructor
  · exact reindexScan_storeData ps 0 h
  · have := storeIndexFrom_reads ps []
    simpa using this

theorem store_reindex_roundtrip_witness :
    validPayloads [[1], [2, 3]] ∧ run_reindex (storeData [[1], [2, 3]]) = storeIndex [[1], [2, 3]] := by
  refine ⟨by decide, ?_⟩
  exact (store_reindex_roundtrip [[1], [2, 3]] (by decide)).1

/-! ## ApplyEngine: configuration validation -/

/-- C5: the configuration combining `--index-order keep` with
`--on-error ignore` is rejected up front, for every input and every
completion behavior. -/
theorem run_apply_rejects_keep_ignore (order : IndexOrder) (onErr : OnError)
    (is_stdout : Bool) (names : List String) (completions : List TaskResult)
    (ho : order = IndexOrder.keep) (he : onErr = OnError.ignore) :
    run_apply order onErr is_stdout names completions = .error .config := by
  subst ho he
  simp [run_apply]

theorem run_apply_rejects_keep_ignore_witness :
    run_apply IndexOrder.keep OnError.ignore true ["a"] [] = .error .config :=
  run_apply_rejects_keep_ignore IndexOrder.keep OnError.ignore true ["a"] [] rfl rfl

/-! ## ApplyEngine: the sort plus ignore failure

With `--index-order sort --on-error ignore`, an ignored record is never
removed from the front of the target-order queue, so every later record
stays in the pending buffer and the end-of-run assertion fires. -/

/-- Failing task result for record `a` of the failing input. -/
def exFailA : TaskResult := { name := "a", out := [], err := [9], rc := 1 }

/-- Succeeding task result for record `b` of the failing input. -/
def exOkB : TaskResult := { name := "b", out := [20], err := [], rc := 0 }

/-- C1: evaluation at the failing input.  Order policy `sort` with error
policy `ignore`, records `a` (transformation exits 1) and `b` (exits 0):
the consumption loop runs to completion, yet the pending buffer still
holds `b`, and `run_apply` ends in the internal-consistency assertion
instead of an empty buffer — refuting the claim that the buffer is always
empty after the last completion under `ignore`. -/
theorem run_apply_sort_ignore_trips_assert :
    consumeAll false IndexOrder.sort OnError.ignore
        (initState IndexOrder.sort ["a", "b"]) [exFailA, exOkB] =
      .ok { queue := ["a", "b"], buf := [("b", 0, 2)], offset := 2, data := [20, 0],
            index := [], diag := [("a", 1, [9])] } ∧
    run_apply IndexOrder.sort OnError.ignore false ["a", "b"] [exFailA, exOkB] =
      .error .corrupt :=
  ⟨rfl, rfl⟩

/-- Input records of the second failing input: `a` and `b` with one-byte
payloads. -/
def exRecords : List (String × List Nat) := [("a", [1]), ("b", [2])]

/-- External program of the second failing input: exits 1 on payload
`[1]`, transforms payload `[2]` into `[7, 7]`. -/
def exProg (p : List Nat) : List Nat × List Nat × Int :=
  if p = [1] then ([5], [9], 1) else ([7, 7], [], 0)

/-- C2: evaluation at the failing input.  Under `sort` with `ignore`, the
failing record `a` indeed contributes nothing, but the succeeding record
`b` has its transformed payload written to the data output while its index
line is never emitted, and the run aborts on the consistency assertion —
refuting the claim that every record exiting 0 appears in the output
store. -/
theorem run_apply_sort_ignore_drops_indexed_output :
    submitted exProg OnError.ignore exRecords =
      [{ name := "a", out := [], err := [9], rc := 1 },
       { name := "b", out := [7, 7], err := [], rc := 0 }] ∧
    consumeAll false IndexOrder.sort OnError.ignore
        (initState IndexOrder.sort ["a", "b"]) (submitted exProg OnError.ignore exRecords) =
      .ok { queue := ["a", "b"], buf := [("b", 0, 3)], offset := 3, data := [7, 7, 0],
            index := [], diag := [("a", 1, [9])] } ∧
    run_apply IndexOrder.sort OnError.ignore false ["a", "b"]
        (submitted exProg OnError.ignore exRecords) = .error .corrupt :=
  ⟨rfl, rfl, rfl⟩

/-! ## ApplyEngine: data is written in completion order -/

/-- Task result for record `a` completing second. -/
def cexA : TaskResult := { name := "a", out := [10, 11], err := [], rc := 0 }

/-- Task result for record `b` completing first. -/
def cexB : TaskResult := { name := "b", out := [20], err := [], rc := 0 }

/-- Final state of the `keep`-order run whose completions arrive in the
order `b, a`. -/
def cexState : EngineState :=
  { queue := [], buf := [], offset := 5, data := [20, 0, 10, 11, 0],
    index := [("a", 2, 3), ("b", 0, 2)], diag := [] }

/-- C3 counterexample: with order policy `keep`, records `a, b` both
succeeding and completions arriving `b` first, the payloads land in the
data file in completion order (`b` before `a`), not target order, and the
emitted index lines carry starts `2, 0`, which are not monotonically
increasing — refuting the claim that a record's payload is written at the
moment it is popped from the pending buffer. -/
theorem run_apply_write_order_cex :
    run_apply IndexOrder.keep OnError.exit false ["a", "b"] [cexB, cexA] = .ok cexState ∧
    cexState.index.map (fun e => e.2.1) = [2, 0] ∧
    ¬ List.Sorted (fun x y : Nat => x ≤ y) [2, 0] ∧
    cexState.data ≠ [10, 11, 0] ++ [20, 0] := by
  refine ⟨rfl, rfl, ?_, by decide⟩
  decide

/-! ## Pending-buffer association list lemmas -/

theorem lookupBuf_eq_none_iff (n : String) :
    ∀ l : List (String × Nat × Nat), lookupBuf n l = none ↔ n ∉ l.map Prod.fst := by
  intro l
  induction l with
  | nil => simp [lookupBuf]
  | cons e rest ih =>
    by_cases he : e.1 = n
    · simp [lookupBuf, he]
    · simp [lookupBuf, he, ih, Ne.symm he]

theorem lookupBuf_mem {n : String} :
    ∀ {l : List (String × Nat × Nat)} {v : Nat × Nat}, lookupBuf n l = some v → (n, v) ∈ l := by
  intro l
  induction l with
  | nil => intro v h; simp [lookupBuf] at h
  | cons e rest ih =>
    intro v h
    by_cases he : e.1 = n
    · simp only [lookupBuf, if_pos he] at h
      cases h
      have hpe : (n, e.2) = e := by rw [← he]
      rw [hpe]
      exact List.mem_cons_self _ _
    · simp only [lookupBuf, if_neg he] at h
      exact List.mem_cons_of_mem _ (ih h)

theorem eraseKey_sublist (n : String) :
    ∀ l : List (String × Nat × Nat), (eraseKey n l).Sublist l := by
  intro l
  induction l with
  | nil => simp [eraseKey]
  | cons e rest ih =>
    by_cases he : e.1 = n
    · simp only [eraseKey, if_pos he]
      exact (List.sublist_cons_self e rest)
    · simp only [eraseKey, if_neg he]
      exact ih.cons₂ e

theorem perm_cons_eraseKey {n : String} :
    ∀ {l : List (String × Nat × Nat)} {v : Nat × Nat},
      lookupBuf n l = some v → l.Perm ((n, v) :: eraseKey n l) := by
  intro l
  induction l with
  | nil => intro v h; simp [lookupBuf] at h
  | cons e rest ih =>
    intro v h
    by_cases he : e.1 = n
    · simp only [lookupBuf, if_pos he] at h
      cases h
      simp only [eraseKey, if_pos he]
      have : e = (n, e.2) := by rw [← he]
      rw [this]
    · simp only [lookupBuf, if_neg he] at h
      simp only [eraseKey, if_neg he]
      exact ((ih h).cons e).trans (List.Perm.swap _ _ _)

theorem lookupBuf_eraseKey_of_ne {m n : String} (hmn : m ≠ n) :
    ∀ l : List (String × Nat × Nat), lookupBuf m (eraseKey n l) = lookupBuf m l := by
  intro l
  induction l with
  | nil => rfl
  | cons e rest ih =>
    by_cases he : e.1 = n
    · simp only [eraseKey, if_pos he, lookupBuf]
      rw [if_neg (by rw [he]; exact Ne.symm hmn)]
    · by_cases hm : e.1 = m
      · simp [eraseKey, if_neg he, lookupBuf, hm, hmn]
      · simp [eraseKey, if_neg he, lookupBuf, hm, ih]

theorem insertBuf_of_not_mem {n : String} {v : Nat × Nat} :
    ∀ {l : List (String × Nat × Nat)}, lookupBuf n l = none → insertBuf n v l = l ++ [(n, v)] := by
  intro l
  induction l with
  | nil => intro _; rfl
  | cons e rest ih =>
    intro h
    by_cases he : e.1 = n
    · simp [lookupBuf, if_pos he] at h
    · simp only [lookupBuf, if_neg he] at h
      simp [insertBuf, if_neg he, ih h]

/-! ## Drain loop lemmas -/

theorem drain_spec :
    ∀ (q : List String) (buf : List (String × Nat × Nat)),
      q = (drain q buf).2.2.map Prod.fst ++ (drain q buf).1 ∧
      ((drain q buf).2.1).Sublist buf ∧
      buf.Perm ((drain q buf).2.2 ++ (drain q buf).2.1) ∧
      (∀ n qs, (drain q buf).1 = n :: qs → lookupBuf n (drain q buf).2.1 = none) := by
  intro q
  induction q with
  | nil =>
    intro buf
    refine ⟨rfl, List.Sublist.refl _, List.Perm.refl _, ?_⟩
    intro n qs h
    simp [drain] at h
  | cons n rest ih =>
    intro buf
    cases hl : lookupBuf n buf with
    | none =>
      simp only [drain, hl]
      exact ⟨rfl, List.Sublist.refl _, List.Perm.refl _, by
        intro m qs h
        cases h
        exact hl⟩
    | some v =>
      obtain ⟨ih1, ih2, ih3, ih4⟩ := ih (eraseKey n buf)
      simp only [drain, hl]
      refine ⟨?_, ?_, ?_, ?_⟩
      · simpa using congrArg (List.cons n) ih1
      · exact ih2.trans (eraseKey_sublist n buf)
      · exact (perm_cons_eraseKey hl).trans (by simpa using ih3.cons (n, v))
      · exact ih4

/-! ## The consumption-loop invariant for buffered (`keep`/`sort`) order -/

/-- Slice reads are stable under appending to the data file. -/
theorem readRecord_append (d t : List Nat) (o l : Nat) (h : o + l ≤ d.length) :
    readRecord (d ++ t) o l = readRecord d o l := by
  unfold readRecord
  rw [List.drop_append_eq_append_drop]
  have h1 : o - d.length = 0 := by omega
  rw [h1, List.drop_zero, List.take_append_eq_append_take]
  have h2 : (d.drop o).length = d.length - o := by simp
  have h3 : l - (d.drop o).length = 0 := by omega
  rw [h3, List.take_zero, List.append_nil]

/-- A full-length slice read lies inside the data file. -/
theorem readRecord_bound {d : List Nat} {o l : Nat}
    (h : (readRecord d o l).length = l) (hpos : 0 < l) : o + l ≤ d.length := by
  unfold readRecord at h
  rw [List.length_take, List.length_drop] at h
  have := Nat.min_le_right l (d.length - o)
  rw [h] at this
  omega

/-- Loop invariant of the buffered consumption loop relative to the target
order `T` and the completions `done` consumed so far (every element of
`done` written out, none ignored; the `diag` field is unconstrained):
the emitted index names are the consumed front of `T`, buffered names lie
in the remaining queue and miss its front, index and buffer names together
are the names of `done`, the running offset is the data length, every
buffered or emitted `(name, start, length)` addresses the payload plus
sentinel of its completion, and the data is the completion-order
concatenation. -/
structure Inv (T : List String) (done : List TaskResult) (st : EngineState) : Prop where
  hqueue : T = st.index.map Prod.fst ++ st.queue
  hkeys : ∀ n ∈ st.buf.map Prod.fst, n ∈ st.queue
  hfront : ∀ n qs, st.queue = n :: qs → lookupBuf n st.buf = none
  hperm : (st.index.map Prod.fst ++ st.buf.map Prod.fst).Perm (done.map TaskResult.name)
  hoff : st.offset = st.data.length
  haddr : ∀ e ∈ st.buf ++ st.index, ∃ r ∈ done, r.name = e.1 ∧ e.2.2 = r.out.length + 1 ∧
    readRecord st.data e.2.1 e.2.2 = r.out ++ [0]
  hdata : st.data = (done.map (fun r => r.out ++ [0])).flatten

theorem Inv.diag_irrel {T : List String} {done : List TaskResult} {st : EngineState}
    (h : Inv T done st) (d : List (String × Int × List Nat)) :
    Inv T done { st with diag := d } :=
  ⟨h.hqueue, h.hkeys, h.hfront, h.hperm, h.hoff, h.haddr, h.hdata⟩

theorem writeOut_eq {order : IndexOrder} (ho : order ≠ IndexOrder.data)
    (st : EngineState) (r : TaskResult) :
    writeOut false order st r =
      { queue := (drain st.queue (insertBuf r.name (st.offset, r.out.length + 1) st.buf)).1
        buf := (drain st.queue (insertBuf r.name (st.offset, r.out.length + 1) st.buf)).2.1
        offset := st.offset + (r.out.length + 1)
        data := st.data ++ r.out ++ [0]
        index := st.index ++ (drain st.queue (insertBuf r.name (st.offset, r.out.length + 1) st.buf)).2.2
        diag := st.diag } := by
  simp only [writeOut, if_pos ho, Bool.false_eq_true, if_false]

/-- One written-out completion preserves the invariant. -/
theorem writeOut_step {order : IndexOrder} (ho : order ≠ IndexOrder.data)
    {T : List String} {done : List TaskResult} {st : EngineState} {r : TaskResult}
    (hI : Inv T done st) (hdone : (done.map TaskResult.name).Nodup)
    (hmem : r.name ∈ T) (hnew : r.name ∉ done.map TaskResult.name) :
    Inv T (done ++ [r]) (writeOut false order st r) := by
  have hnotbuf : r.name ∉ st.buf.map Prod.fst := by
    intro hin
    exact hnew (hI.hperm.mem_iff.mp (List.mem_append_right _ hin))
  have hfresh : lookupBuf r.name st.buf = none := (lookupBuf_eq_none_iff _ _).mpr hnotbuf
  have hbufkeys_nodup : (st.buf.map Prod.fst).Nodup :=
    (hI.hperm.symm.nodup hdone).of_append_right
  have hidx_sub : ∀ n ∈ st.index.map Prod.fst, n ∈ done.map TaskResult.name :=
    fun n hn => hI.hperm.mem_iff.mp (List.mem_append_left _ hn)
  have hrq : r.name ∈ st.queue := by
    rcases List.mem_append.mp (hI.hqueue ▸ hmem) with h | h
    · exact absurd (hidx_sub _ h) hnew
    · exact h
  rw [writeOut_eq ho, insertBuf_of_not_mem hfresh]
  obtain ⟨d1, d2, d3, d4⟩ :=
    drain_spec st.queue (st.buf ++ [(r.name, (st.offset, r.out.length + 1))])
  set B1 := st.buf ++ [(r.name, (st.offset, r.out.length + 1))] with hB1
  set D := drain st.queue B1 with hD
  have hB1keys : B1.map Prod.fst = st.buf.map Prod.fst ++ [r.name] := by
    simp [hB1]
  have hB1nodup : (B1.map Prod.fst).Nodup := by
    rw [hB1keys, List.nodup_append]
    refine ⟨hbufkeys_nodup, List.nodup_singleton _, ?_⟩
    intro a ha hb
    rw [List.mem_singleton] at hb
    subst hb
    exact hnotbuf ha
  have hpermKeys : (B1.map Prod.fst).Perm ((D.2.2).map Prod.fst ++ (D.2.1).map Prod.fst) := by
    simpa [List.map_append] using d3.map Prod.fst
  have hDnodup : ((D.2.2).map Prod.fst ++ (D.2.1).map Prod.fst).Nodup :=
    hpermKeys.nodup hB1nodup
  refine ⟨?_, ?_, ?_, ?_, ?_, ?_, ?_⟩
  · show T = (st.index ++ D.2.2).map Prod.fst ++ D.1
    rw [List.map_append, List.append_assoc, ← d1]
    exact hI.hqueue
  · intro n hn
    show n ∈ D.1
    have hnB1 : n ∈ B1.map Prod.fst :=
      hpermKeys.symm.mem_iff.mp (List.mem_append_right _ hn)
    have hnq : n ∈ st.queue := by
      rw [hB1keys] at hnB1
      rcases List.mem_append.mp hnB1 with h | h
      · exact hI.hkeys n h
      · rw [List.mem_singleton] at h
        subst h
        exact hrq
    rw [d1] at hnq
    rcases List.mem_append.mp hnq with h | h
    · exfalso
      exact (List.nodup_append.mp hDnodup).2.2 h hn
    · exact h
  · exact d4
  · show ((st.index ++ D.2.2).map Prod.fst ++ (D.2.1).map Prod.fst).Perm
      ((done ++ [r]).map TaskResult.name)
    rw [List.map_append, List.map_append, List.append_assoc]
    have step1 := hpermKeys.symm.append_left (st.index.map Prod.fst)
    refine step1.trans ?_
    rw [hB1keys, ← List.append_assoc]
    simpa using hI.hperm.append_right [r.name]
  · show st.offset + (r.out.length + 1) = (st.data ++ r.out ++ [0]).length
    simp [hI.hoff]
  · intro e he
    show ∃ rr ∈ done ++ [r], rr.name = e.1 ∧ e.2.2 = rr.out.length + 1 ∧
      readRecord (st.data ++ r.out ++ [0]) e.2.1 e.2.2 = rr.out ++ [0]
    have heB1orIdx : e ∈ B1 ∨ e ∈ st.index := by
      rcases List.mem_append.mp he with h | h
      · exact Or.inl (d2.subset h)
      · rcases List.mem_append.mp h with h2 | h2
        · exact Or.inr h2
        · exact Or.inl (d3.symm.mem_iff.mp (List.mem_append_left _ h2))
    have hold : e ∈ st.buf ++ st.index ∨ e = (r.name, (st.offset, r.out.length + 1)) := by
      rcases heB1orIdx with h | h
      · rcases List.mem_append.mp h with h2 | h2
        · exact Or.inl (List.mem_append_left _ h2)
        · rw [List.mem_singleton] at h2
          exact Or.inr h2
      · exact Or.inl (List.mem_append_right _ h)
    rcases hold with h | h
    · obtain ⟨r', hr', h1, h2, h3⟩ := hI.haddr e h
      have hlen : (readRecord st.data e.2.1 e.2.2).length = e.2.2 := by
        rw [h3]
        simp [h2]
      have hb := readRecord_bound hlen (by omega)
      refine ⟨r', List.mem_append_left _ hr', h1, h2, ?_⟩
      rw [List.append_assoc, readRecord_append _ _ _ _ hb]
      exact h3
    · subst h
      refine ⟨r, List.mem_append_right _ (List.mem_singleton.mpr rfl), rfl, rfl, ?_⟩
      show readRecord (st.data ++ r.out ++ [0]) st.offset (r.out.length + 1) = r.out ++ [0]
      rw [List.append_assoc, hI.hoff]
      unfold readRecord
      rw [List.drop_left]
      rw [show r.out.length + 1 = (r.out ++ [0]).length by simp]
      exact List.take_length _
  · show st.data ++ r.out ++ [0] = ((done ++ [r]).map (fun r => r.out ++ [0])).flatten
    rw [List.map_append, List.flatten_append, ← hI.hdata]
    simp [List.append_assoc]

/-- One iteration of the consumption loop preserves the invariant,
provided the result is not skipped (its exit code is 0, or the error
policy substitutes a payload instead of dropping or aborting). -/
theorem consume_step {order : IndexOrder} {onErr : OnError} (ho : order ≠ IndexOrder.data)
    {T : List String} {done : List TaskResult} {st : EngineState} {r : TaskResult}
    (hI : Inv T done st) (hdone : (done.map TaskResult.name).Nodup)
    (hmem : r.name ∈ T) (hnew : r.name ∉ done.map TaskResult.name)
    (hwrite : r.rc > 0 → onErr = OnError.blank ∨ onErr = OnError.original) :
    ∃ st', consume false order onErr st r = .ok st' ∧ Inv T (done ++ [r]) st' := by
  by_cases hrc : r.rc > 0
  · have hne : onErr ≠ OnError.exit := by
      rcases hwrite hrc with h | h <;> (subst h; intro hc; cases hc)
    have hni : onErr ≠ OnError.ignore := by
      rcases hwrite hrc with h | h <;> (subst h; intro hc; cases hc)
    refine ⟨writeOut false order { st with diag := st.diag ++ [(r.name, r.rc, r.err)] } r, ?_, ?_⟩
    · simp only [consume, if_pos hrc, if_neg hne, if_neg hni]
    · exact writeOut_step ho (hI.diag_irrel _) hdone hmem hnew
  · refine ⟨writeOut false order st r, ?_, ?_⟩
    · simp only [consume, if_neg hrc]
    · exact writeOut_step ho hI hdone hmem hnew

/-- The whole consumption loop preserves the invariant when no result is
skipped. -/
theorem consumeAll_inv {order : IndexOrder} {onErr : OnError} (ho : order ≠ IndexOrder.data)
    {T : List String} :
    ∀ (results done : List TaskResult) (st : EngineState),
      Inv T done st →
      ((done ++ results).map TaskResult.name).Nodup →
      (∀ r ∈ results, r.name ∈ T) →
      (∀ r ∈ results, r.rc > 0 → onErr = OnError.blank ∨ onErr = OnError.original) →
      ∃ stF, consumeAll false order onErr st results = .ok stF ∧ Inv T (done ++ results) stF := by
  intro results
  induction results with
  | nil =>
    intro done st hI _ _ _
    exact ⟨st, rfl, by simpa using hI⟩
  | cons r rs ih =>
    intro done st hI hnodup hmemT hwrite
    have hnodup' : ((done ++ r :: rs).map TaskResult.name).Nodup := hnodup
    rw [List.map_append, List.nodup_append] at hnodup'
    have hdone : (done.map TaskResult.name).Nodup := hnodup'.1
    have hnew : r.name ∉ done.map TaskResult.name := by
      intro hin
      exact hnodup'.2.2 hin (by simp)
    obtain ⟨st', hc, hI'⟩ := consume_step ho hI hdone (hmemT r (List.mem_cons_self r rs)) hnew
      (hwrite r (List.mem_cons_self r rs))
    have hrw : (done ++ [r]) ++ rs = done ++ r :: rs := by simp
    obtain ⟨stF, hfold, hIF⟩ := ih (done ++ [r]) st' hI'
      (by rw [hrw]; exact hnodup)
      (fun x hx => hmemT x (List.mem_cons_of_mem _ hx))
      (fun x hx => hwrite x (List.mem_cons_of_mem _ hx))
    refine ⟨stF, ?_, by rw [← hrw]; exact hIF⟩
    show List.foldlM (consume false order onErr) st (r :: rs) = .ok stF
    rw [List.foldlM_cons, hc]
    exact hfold

/-- When every submitted record has been consumed, the queue and the
pending buffer are empty and the emitted index names are exactly the
target order. -/
theorem inv_final {T : List String} {done : List TaskResult} {stF : EngineState}
    (hI : Inv T done stF) (hperm : (done.map TaskResult.name).Perm T) :
    stF.queue = [] ∧ stF.buf = [] ∧ stF.index.map Prod.fst = T := by
  have hbq : (stF.buf.map Prod.fst).Perm stF.queue := by
    have h1 : (stF.index.map Prod.fst ++ stF.buf.map Prod.fst).Perm
        (stF.index.map Prod.fst ++ stF.queue) := by
      refine hI.hperm.trans ?_
      rw [← hI.hqueue]
      exact hperm
    exact (List.perm_append_left_iff _).mp h1
  have hq : stF.queue = [] := by
    cases hqe : stF.queue with
    | nil => rfl
    | cons n qs =>
      exfalso
      have hnB : n ∈ stF.buf.map Prod.fst := by
        rw [hqe] at hbq
        exact hbq.symm.mem_iff.mp (List.mem_cons_self n qs)
      have := hI.hfront n qs hqe
      rw [lookupBuf_eq_none_iff] at this
      exact this hnB
  have hb : stF.buf = [] := by
    rw [hq] at hbq
    have := hbq.eq_nil
    exact List.map_eq_nil_iff.mp this
  refine ⟨hq, hb, ?_⟩
  have := hI.hqueue
  rw [hq, List.append_nil] at this
  exact this.symm

theorem targetOrder_perm (order : IndexOrder) (names : List String) :
    (targetOrder order names).Perm names := by
  by_cases h : order = IndexOrder.sort
  · simp only [targetOrder, if_pos h]
    exact List.perm_insertionSort _ names
  · simp only [targetOrder, if_neg h]
    exact List.Perm.refl _

theorem initState_inv (order : IndexOrder) (names : List String) :
    Inv (targetOrder order names) [] (initState order names) := by
  refine ⟨?_, ?_, ?_, ?_, ?_, ?_, ?_⟩
  · simp [initState]
  · intro n hn
    simp [initState] at hn
  · intro n qs _
    rfl
  · simp [initState]
  · simp [initState]
  · intro e he
    simp [initState] at he
  · simp [initState]

/-- Completed buffered run: when the completions are a permutation of the
submitted names and no completion is skipped, `run_apply` under `keep` or
`sort` succeeds, its index names are exactly the target order, its data
file is the completion-order concatenation of payload plus sentinel, and
every emitted index line addresses its record's span. -/
theorem run_apply_complete {order : IndexOrder} {onErr : OnError}
    (ho : order ≠ IndexOrder.data)
    (hcfg : ¬(order = IndexOrder.keep ∧ onErr = OnError.ignore))
    (names : List String) (completions : List TaskResult)
    (hnodup : names.Nodup)
    (hperm : (completions.map TaskResult.name).Perm names)
    (hwrite : ∀ r ∈ completions, r.rc > 0 → onErr = OnError.blank ∨ onErr = OnError.original) :
    ∃ stF, run_apply order onErr false names completions = .ok stF ∧
      stF.index.map Prod.fst = targetOrder order names ∧
      stF.data = (completions.map (fun r => r.out ++ [0])).flatten ∧
      ∀ e ∈ stF.index, ∃ r ∈ completions, r.name = e.1 ∧ e.2.2 = r.out.length + 1 ∧
        readRecord stF.data e.2.1 e.2.2 = r.out ++ [0] := by
  have hpermT : (completions.map TaskResult.name).Perm (targetOrder order names) :=
    hperm.trans (targetOrder_perm order names).symm
  have hnodupC : ((([] : List TaskResult) ++ completions).map TaskResult.name).Nodup := by
    simp only [List.nil_append]
    exact hperm.symm.nodup hnodup
  obtain ⟨stF, hfold, hIF⟩ := consumeAll_inv ho completions [] (initState order names)
    (initState_inv order names) hnodupC
    (fun r hr => hpermT.mem_iff.mp (List.mem_map_of_mem _ hr))
    hwrite
  rw [List.nil_append] at hIF
  have hfin := inv_final hIF hpermT
  refine ⟨stF, ?_, hfin.2.2, hIF.hdata, ?_⟩
  · unfold run_apply
    rw [if_neg hcfg]
    show (match consumeAll false order onErr (initState order names) completions with
      | Except.error e => Except.error e
      | Except.ok st =>
        if st.buf = [] then Except.ok st else Except.error ApplyError.corrupt) = Except.ok stF
    rw [hfold]
    simp [hfin.2.1]
  · intro e he
    exact hIF.haddr e (by rw [hfin.2.1]; simpa using he)

/-- C3 (amended): with order policy `keep` or `sort` and an indexed output
store, a completed record's payload plus sentinel is written to the data
output at the moment its completion is consumed (so the data file is in
completion order), the buffered entry records the offset of that write,
and the index line emitted when the record's name reaches the front of the
target-order queue carries that recorded offset; consequently the index
lines appear exactly in target order and each one addresses its record's
payload plus sentinel span in the data file. -/
theorem run_apply_ordered_output {order : IndexOrder} {onErr : OnError}
    (ho : order = IndexOrder.keep ∨ order = IndexOrder.sort)
    (hcfg : ¬(order = IndexOrder.keep ∧ onErr = OnError.ignore))
    (names : List String) (completions : List TaskResult)
    (hnodup : names.Nodup)
    (hperm : (completions.map TaskResult.name).Perm names)
    (hwrite : ∀ r ∈ completions, r.rc > 0 → onErr = OnError.blank ∨ onErr = OnError.original) :
    ∃ stF, run_apply order onErr false names completions = .ok stF ∧
      stF.index.map Prod.fst = targetOrder order names ∧
      stF.data = (completions.map (fun r => r.out ++ [0])).flatten ∧
      ∀ e ∈ stF.index, ∃ r ∈ completions, r.name = e.1 ∧ e.2.2 = r.out.length + 1 ∧
        readRecord stF.data e.2.1 e.2.2 = r.out ++ [0] := by
  have hd : order ≠ IndexOrder.data := by
    rcases ho with h | h <;> (subst h; intro hc; cases hc)
  exact run_apply_complete hd hcfg names completions hnodup hperm hwrite

theorem run_apply_ordered_output_witness :
    ∃ stF, run_apply IndexOrder.keep OnError.exit false ["a", "b"] [cexB, cexA] = .ok stF ∧
      stF.index.map Prod.fst = targetOrder IndexOrder.keep ["a", "b"] ∧
      stF.data = ([cexB, cexA].map (fun r => r.out ++ [0])).flatten ∧
      ∀ e ∈ stF.index, ∃ r ∈ [cexB, cexA], r.name = e.1 ∧ e.2.2 = r.out.length + 1 ∧
        readRecord stF.data e.2.1 e.2.2 = r.out ++ [0] :=
  run_apply_ordered_output (Or.inl rfl) (by simp) ["a", "b"] [cexB, cexA]
    (by decide) (by decide) (by decide)

/-! ## Code point order on names -/

theorem charsLe_total : ∀ a b : List Char, charsLe a b = true ∨ charsLe b a = true := by
  intro a
  induction a with
  | nil => intro b; left; rfl
  | cons x xs ih =>
    intro b
    cases b with
    | nil => right; rfl
    | cons y ys =>
      by_cases hxy : x = y
      · subst hxy
        simpa [charsLe] using ih ys
      · have hne : x.toNat ≠ y.toNat := by
          intro he
          exact hxy (Char.eq_of_val_eq (UInt32.toNat.inj he))
        rcases Nat.lt_or_ge x.toNat y.toNat with h | h
        · left; simp [charsLe, hxy, h]
        · have h2 : y.toNat < x.toNat := lt_of_le_of_ne h (Ne.symm hne)
          right; simp [charsLe, Ne.symm hxy, h2]

theorem charsLe_trans :
    ∀ a b c : List Char, charsLe a b = true → charsLe b c = true → charsLe a c = true := by
  intro a
  induction a with
  | nil => intro b c _ _; rfl
  | cons x xs ih =>
    intro b c hab hbc
    cases b with
    | nil => simp [charsLe] at hab
    | cons y ys =>
      cases c with
      | nil => simp [charsLe] at hbc
      | cons z zs =>
        by_cases hxy : x = y
        · subst hxy
          by_cases hxz : x = z
          · subst hxz
            simp only [charsLe, if_pos rfl] at hab hbc ⊢
            exact ih ys zs hab hbc
          · simp only [charsLe, if_pos rfl] at hab
            simpa [charsLe, hxz] using hbc
        · by_cases hyz : y = z
          · subst hyz
            simpa [charsLe, hxy] using hab
          · simp [charsLe, hxy] at hab
            simp [charsLe, hyz] at hbc
            have hxz : x.toNat < z.toNat := lt_trans hab hbc
            have hne : x ≠ z := by
              intro he
              subst he
              exact absurd hxz (lt_irrefl _)
            simp [charsLe, hne, hxz]

instance : IsTotal String (fun a b => strLe a b = true) :=
  ⟨fun a b => charsLe_total a.toList b.toList⟩

instance : IsTrans String (fun a b => strLe a b = true) :=
  ⟨fun a b c => charsLe_trans a.toList b.toList c.toList⟩

/-- C4: with order policy `sort` and every transformation exiting 0, the
emitted index lines are the input names sorted ascending by code point
order, whatever the completion order of the parallel tasks. -/
theorem run_apply_sort_output_sorted (onErr : OnError)
    (names : List String) (completions : List TaskResult)
    (hnodup : names.Nodup)
    (hperm : (completions.map TaskResult.name).Perm names)
    (hsucc : ∀ r ∈ completions, r.rc = 0) :
    ∃ stF, run_apply IndexOrder.sort onErr false names completions = .ok stF ∧
      stF.index.map Prod.fst = List.insertionSort (fun a b => strLe a b = true) names ∧
      List.Sorted (fun a b => strLe a b = true) (stF.index.map Prod.fst) ∧
      (stF.index.map Prod.fst).Perm names := by
  have hwrite : ∀ r ∈ completions, r.rc > 0 → onErr = OnError.blank ∨ onErr = OnError.original := by
    intro r hr hrc
    rw [hsucc r hr] at hrc
    omega
  obtain ⟨stF, hrun, hidx, _, _⟩ := @run_apply_complete IndexOrder.sort onErr
    (by intro h; cases h) (by intro h; cases h.1) names completions hnodup hperm hwrite
  rw [show targetOrder IndexOrder.sort names =
    List.insertionSort (fun a b => strLe a b = true) names from rfl] at hidx
  refine ⟨stF, hrun, hidx, ?_, ?_⟩
  · rw [hidx]
    exact List.sorted_insertionSort _ names
  · rw [hidx]
    exact List.perm_insertionSort _ names

theorem run_apply_sort_output_sorted_witness :
    ∃ stF, run_apply IndexOrder.sort OnError.exit false ["c", "a", "b"]
        [{ name := "b", out := [2], err := [], rc := 0 },
         { name := "c", out := [3], err := [], rc := 0 },
         { name := "a", out := [1], err := [], rc := 0 }] = .ok stF ∧
      stF.index.map Prod.fst =
        List.insertionSort (fun a b => strLe a b = true) ["c", "a", "b"] ∧
      List.Sorted (fun a b => strLe a b = true) (stF.index.map Prod.fst) ∧
      (stF.index.map Prod.fst).Perm ["c", "a", "b"] :=
  run_apply_sort_output_sorted OnError.exit ["c", "a", "b"] _
    (by decide) (by decide) (by decide)

/-! ## Error policy behavior -/

theorem writeOut_diag (b : Bool) (order : IndexOrder) (st : EngineState) (r : TaskResult) :
    (writeOut b order st r).diag = st.diag := by
  unfold writeOut
  split_ifs <;> rfl

theorem consume_diag_mem {b : Bool} {order : IndexOrder} {onErr : OnError}
    {st st' : EngineState} {r : TaskResult} {x : String × Int × List Nat}
    (h : consume b order onErr st r = .ok st') (hx : x ∈ st.diag) : x ∈ st'.diag := by
  unfold consume at h
  by_cases hrc : r.rc > 0
  · rw [if_pos hrc] at h
    by_cases he : onErr = OnError.exit
    · rw [if_pos he] at h
      cases h
    · rw [if_neg he] at h
      by_cases hi : onErr = OnError.ignore
      · rw [if_pos hi] at h
        cases h
        simpa using Or.inl hx
      · rw [if_neg hi] at h
        cases h
        rw [writeOut_diag]
        simpa using Or.inl hx
  · rw [if_neg hrc] at h
    cases h
    rw [writeOut_diag]
    exact hx

theorem consume_fail_diag {b : Bool} {order : IndexOrder} {onErr : OnError}
    {st st' : EngineState} {r : TaskResult}
    (hrc : r.rc > 0) (hne : onErr ≠ OnError.exit)
    (h : consume b order onErr st r = .ok st') : (r.name, r.rc, r.err) ∈ st'.diag := by
  unfold consume at h
  rw [if_pos hrc, if_neg hne] at h
  by_cases hi : onErr = OnError.ignore
  · rw [if_pos hi] at h
    cases h
    simp
  · rw [if_neg hi] at h
    cases h
    rw [writeOut_diag]
    simp

theorem consumeAll_diag_mem {b : Bool} {order : IndexOrder} {onErr : OnError} :
    ∀ (results : List TaskResult) (st stF : EngineState) (x : String × Int × List Nat),
      consumeAll b order onErr st results = .ok stF → x ∈ st.diag → x ∈ stF.diag := by
  intro results
  induction results with
  | nil =>
    intro st stF x h hx
    cases h
    exact hx
  | cons s rs ih =>
    intro st stF x h hx
    rw [show consumeAll b order onErr st (s :: rs) =
      List.foldlM (consume b order onErr) st (s :: rs) from rfl, List.foldlM_cons] at h
    cases hc : consume b order onErr st s with
    | error e => rw [hc] at h; cases h
    | ok st1 =>
      rw [hc] at h
      exact ih st1 stF x h (consume_diag_mem hc hx)

theorem consumeAll_fail_reported {b : Bool} {order : IndexOrder} {onErr : OnError}
    (hne : onErr ≠ OnError.exit) :
    ∀ (results : List TaskResult) (st stF : EngineState) (r : TaskResult),
      consumeAll b order onErr st results = .ok stF → r ∈ results → r.rc > 0 →
      (r.name, r.rc, r.err) ∈ stF.diag := by
  intro results
  induction results with
  | nil =>
    intro st stF r _ hr
    cases hr
  | cons s rs ih =>
    intro st stF r h hr hrc
    rw [show consumeAll b order onErr st (s :: rs) =
      List.foldlM (consume b order onErr) st (s :: rs) from rfl, List.foldlM_cons] at h
    cases hc : consume b order onErr st s with
    | error e => rw [hc] at h; cases h
    | ok st1 =>
      rw [hc] at h
      rcases List.mem_cons.mp hr with heq | hmem
      · subst heq
        exact consumeAll_diag_mem rs st1 stF _ h (consume_fail_diag hrc hne hc)
      · exact ih st1 stF r h hmem hrc

theorem consumeAll_exit_aborts {b : Bool} {order : IndexOrder} :
    ∀ (pre : List TaskResult) (post : List TaskResult) (r : TaskResult) (st : EngineState),
      (∀ p ∈ pre, ¬ p.rc > 0) → r.rc > 0 →
      consumeAll b order OnError.exit st (pre ++ r :: post) =
        .error (.transform r.name r.rc r.err) := by
  intro pre
  induction pre with
  | nil =>
    intro post r st _ hrc
    show List.foldlM (consume b order OnError.exit) st (r :: post) = _
    rw [List.foldlM_cons]
    have hc : consume b order OnError.exit st r = .error (.transform r.name r.rc r.err) := by
      unfold consume
      rw [if_pos hrc, if_pos rfl]
    rw [hc]
    rfl
  | cons p pre' ih =>
    intro post r st hpre hrc
    show List.foldlM (consume b order OnError.exit) st ((p :: pre') ++ r :: post) = _
    rw [List.cons_append, List.foldlM_cons]
    have hp : ¬ p.rc > 0 := hpre p (List.mem_cons_self p pre')
    have hc : consume b order OnError.exit st p = .ok (writeOut b order st p) := by
      unfold consume
      rw [if_neg hp]
    rw [hc]
    exact ih post r (writeOut b order st p)
      (fun q hq => hpre q (List.mem_cons_of_mem _ hq)) hrc

/-- Input records of the `keep` plus `original` example run. -/
def c6Records : List (String × List Nat) := [("A", [1]), ("B", [2]), ("C", [3])]

/-- External program of the example run: fails (exit 1, stderr `[7]`) on
record B's payload `[2]`, appends a byte `5` otherwise. -/
def c6Prog (p : List Nat) : List Nat × List Nat × Int :=
  if p = [2] then ([9], [7], 1) else (p ++ [5], [], 0)

/-- Completion order C, A, B of the example run's submitted tasks. -/
def c6Completions : List TaskResult :=
  [apply_to_record c6Prog true "C" [3],
   apply_to_record c6Prog true "A" [1],
   apply_to_record c6Prog true "B" [2]]

/-- Final loop state of the example run. -/
def c6State : EngineState :=
  { queue := [], buf := [], offset := 8, data := [3, 5, 0, 1, 5, 0, 2, 0],
    index := [("A", 3, 3), ("B", 6, 2), ("C", 0, 3)], diag := [("B", 1, [7])] }

/-- C6: a failing transformation is always reported with the record name,
exit code and error-stream bytes: on the diagnostic channel under every
non-`exit` policy, and inside the fatal error that aborts the run at the
first failure under `exit`; under `blank` the failing record's output
payload is the empty byte string, under `original` it is the record's
original input payload; and the `keep` plus `original` run on records
A, B, C with B failing yields index order A, B, C with B's stored bytes
equal to its original payload plus sentinel. -/
theorem apply_error_policies :
    (∀ (b : Bool) (order : IndexOrder) (onErr : OnError) (st stF : EngineState)
        (results : List TaskResult) (r : TaskResult),
      onErr ≠ OnError.exit → consumeAll b order onErr st results = .ok stF →
      r ∈ results → r.rc > 0 → (r.name, r.rc, r.err) ∈ stF.diag) ∧
    (∀ (b : Bool) (order : IndexOrder) (pre post : List TaskResult) (r : TaskResult)
        (st : EngineState),
      (∀ p ∈ pre, ¬ p.rc > 0) → r.rc > 0 →
      consumeAll b order OnError.exit st (pre ++ r :: post) =
        .error (.transform r.name r.rc r.err)) ∧
    (∀ (prog : List Nat → List Nat × List Nat × Int) (n : String) (p : List Nat),
      (prog p).2.2 > 0 → (apply_to_record prog false n p).out = []) ∧
    (∀ (prog : List Nat → List Nat × List Nat × Int) (n : String) (p : List Nat),
      (prog p).2.2 > 0 → (apply_to_record prog true n p).out = p) ∧
    (run_apply IndexOrder.keep OnError.original false ["A", "B", "C"] c6Completions =
        .ok c6State ∧
      c6State.index.map Prod.fst = ["A", "B", "C"] ∧
      readRecord c6State.data 6 2 = [2] ++ [0] ∧
      c6State.diag = [("B", 1, [7])]) := by
  refine ⟨?_, ?_, ?_, ?_, rfl, rfl, rfl, rfl⟩
  · intro b order onErr st stF results r hne h hr hrc
    exact consumeAll_fail_reported hne results st stF r h hr hrc
  · intro b order pre post r st hpre hrc
    exact consumeAll_exit_aborts pre post r st hpre hrc
  · intro prog n p h
    simp [apply_to_record, if_pos h]
  · intro prog n p h
    simp [apply_to_record, if_pos h]

theorem apply_error_policies_witness :
    ((("B" : String), (1 : Int), ([7] : List Nat)) ∈ c6State.diag ∧
      consumeAll false IndexOrder.keep OnError.exit (initState IndexOrder.keep ["B"])
          ([] ++ apply_to_record c6Prog true "B" [2] :: []) =
        .error (.transform "B" 1 [7]) ∧
      (apply_to_record c6Prog false "B" [2]).out = [] ∧
      (apply_to_record c6Prog true "B" [2]).out = [2]) :=
  ⟨apply_error_policies.1 false IndexOrder.keep OnError.original
      (initState IndexOrder.keep ["A", "B", "C"]) c6State c6Completions
      (apply_to_record c6Prog true "B" [2]) (by decide) rfl (by decide) (by decide),
    apply_error_policies.2.1 false IndexOrder.keep [] []
      (apply_to_record c6Prog true "B" [2]) (initState IndexOrder.keep ["B"])
      (by intro p hp; cases hp) (by decide),
    apply_error_policies.2.2.1 c6Prog "B" [2] (by decide),
    apply_error_policies.2.2.2.1 c6Prog "B" [2] (by decide)⟩

/-! ## IndexCodec lemmas -/

theorem digitChar_spec (d : Nat) (h : d < 10) :
    (digitChar d).isDigit = true ∧ digitVal (digitChar d) = d ∧ digitChar d ≠ '_' ∧
      digitChar d ≠ '\t' ∧ digitChar d ≠ '+' ∧ digitChar d ≠ '-' ∧
      isPySpace (digitChar d) = false := by
  interval_cases d <;> exact (by decide)

theorem digitsVal_reverse (L : List Nat) :
    ∀ a : Nat, List.foldl (fun x d => 10 * x + d) a L.reverse =
      a * 10 ^ L.length + Nat.ofDigits 10 L := by
  induction L with
  | nil => intro a; simp
  | cons d L ih =>
    intro a
    rw [List.reverse_cons, List.foldl_append, ih a]
    simp only [List.foldl_cons, List.foldl_nil, Nat.ofDigits_cons, List.length_cons]
    ring

theorem natChars_spec (n : Nat) :
    ∃ ds : List Nat, (∀ d ∈ ds, d < 10) ∧ natChars n = ds.map digitChar ∧
      digitsVal ds = n ∧ ds ≠ [] := by
  by_cases h0 : n = 0
  · subst h0
    exact ⟨[0], by decide, rfl, rfl, by decide⟩
  · refine ⟨(Nat.digits 10 n).reverse, ?_, ?_, ?_, ?_⟩
    · intro d hd
      rw [List.mem_reverse] at hd
      exact Nat.digits_lt_base (by norm_num) hd
    · simp [natChars, h0]
    · unfold digitsVal
      rw [digitsVal_reverse]
      simp [Nat.ofDigits_digits]
    · simp only [ne_eq, List.reverse_eq_nil_iff, Nat.digits_eq_nil_iff_eq_zero]
      exact h0

theorem pyDigitsGo_map (ds : List Nat) (h : ∀ d ∈ ds, d < 10) :
    pyDigitsGo false (ds.map digitChar) = some ds := by
  induction ds with
  | nil => rfl
  | cons d ds ih =>
    obtain ⟨hdig, hval, _⟩ := digitChar_spec d (h d (List.mem_cons_self d ds))
    show pyDigitsGo false (digitChar d :: ds.map digitChar) = _
    simp only [pyDigitsGo, hdig, if_true]
    rw [ih (fun x hx => h x (List.mem_cons_of_mem _ hx)), hval]
    rfl

theorem pyNatCore_map (ds : List Nat) (h : ∀ d ∈ ds, d < 10) (hne : ds ≠ []) :
    pyNatCore (ds.map digitChar) = some (digitsVal ds) := by
  cases ds with
  | nil => exact absurd rfl hne
  | cons d ds =>
    obtain ⟨hdig, hval, _⟩ := digitChar_spec d (h d (List.mem_cons_self d ds))
    unfold pyNatCore
    show (pyDigits (digitChar d :: ds.map digitChar)).map digitsVal = _
    simp only [pyDigits, hdig, if_true]
    rw [pyDigitsGo_map ds (fun x hx => h x (List.mem_cons_of_mem _ hx)), hval]
    rfl

theorem dropWhile_no_space (l : List Char) (h : ∀ c ∈ l, isPySpace c = false) :
    l.dropWhile isPySpace = l := by
  cases l with
  | nil => rfl
  | cons c cs =>
    rw [List.dropWhile_cons, h c (List.mem_cons_self c cs)]
    simp

theorem pyStrip_no_space (l : List Char) (h : ∀ c ∈ l, isPySpace c = false) :
    pyStrip l = l := by
  unfold pyStrip
  rw [dropWhile_no_space l h,
    dropWhile_no_space l.reverse (fun c hc => h c (List.mem_reverse.mp hc)),
    List.reverse_reverse]

theorem natChars_no_space (n : Nat) : ∀ c ∈ natChars n, isPySpace c = false := by
  obtain ⟨ds, hlt, hmap, _, _⟩ := natChars_spec n
  rw [hmap]
  intro c hc
  obtain ⟨d, hd, rfl⟩ := List.mem_map.mp hc
  exact (digitChar_spec d (hlt d hd)).2.2.2.2.2.2

theorem pyInt_natChars_core (x : List Char) (n : Nat) (h : pyStrip x = natChars n) :
    pyInt x = some (n : Int) := by
  obtain ⟨ds, hlt, hmap, hval, hne⟩ := natChars_spec n
  cases ds with
  | nil => exact absurd rfl hne
  | cons d ds =>
    obtain ⟨_, _, _, _, hplus, hminus, _⟩ := digitChar_spec d (hlt d (List.mem_cons_self d ds))
    have hx : pyStrip x = digitChar d :: ds.map digitChar := by
      rw [h, hmap]
      rfl
    unfold pyInt
    rw [hx]
    simp only [if_neg hplus, if_neg hminus]
    rw [show digitChar d :: ds.map digitChar = ((d :: ds).map digitChar) from rfl]
    rw [pyNatCore_map (d :: ds) hlt hne, hval]
    rfl

theorem pyInt_natChars (n : Nat) : pyInt (natChars n) = some (n : Int) :=
  pyInt_natChars_core _ n (pyStrip_no_space _ (natChars_no_space n))

theorem pyStrip_natChars_newline (n : Nat) : pyStrip (natChars n ++ ['\n']) = natChars n := by
  obtain ⟨ds, hlt, hmap, _, hne⟩ := natChars_spec n
  unfold pyStrip
  have hhead : (natChars n ++ ['\n']).dropWhile isPySpace = natChars n ++ ['\n'] := by
    cases hx : natChars n with
    | nil =>
      rw [hx] at hmap
      exact absurd (List.map_eq_nil_iff.mp hmap.symm) hne
    | cons c cs =>
      have hc : isPySpace c = false := by
        apply natChars_no_space n
        rw [hx]
        exact List.mem_cons_self c cs
      rw [List.cons_append, List.dropWhile_cons, hc]
      simp
  rw [hhead, List.reverse_append]
  show (('\n' :: (natChars n).reverse).dropWhile isPySpace).reverse = natChars n
  rw [List.dropWhile_cons]
  rw [show isPySpace '\x0a' = true from rfl]
  simp only [if_pos]
  rw [dropWhile_no_space _ (fun c hc => natChars_no_space n c (List.mem_reverse.mp hc)),
    List.reverse_reverse]

theorem pyInt_natChars_newline (n : Nat) : pyInt (natChars n ++ ['\n']) = some (n : Int) :=
  pyInt_natChars_core _ n (pyStrip_natChars_newline n)

theorem splitTabs_cons (c : Char) (cs : List Char) :
    splitTabs (c :: cs) =
      match splitTabs cs with
      | [] => [[]]
      | f :: fs => if c = '\t' then [] :: f :: fs else (c :: f) :: fs := rfl

theorem splitTabs_ne_nil : ∀ l : List Char, splitTabs l ≠ [] := by
  intro l
  cases l with
  | nil => simp [splitTabs]
  | cons c cs =>
    rw [splitTabs_cons]
    cases h : splitTabs cs with
    | nil => simp
    | cons f fs =>
      by_cases hc : c = '\t' <;> simp [hc]

theorem splitTabs_no_tab (a : List Char) (h : '\t' ∉ a) : splitTabs a = [a] := by
  induction a with
  | nil => rfl
  | cons c a' ih =>
    have hc : c ≠ '\t' := fun hce => h (hce ▸ List.mem_cons_self c a')
    have ha' : '\t' ∉ a' := fun hm => h (List.mem_cons_of_mem _ hm)
    rw [splitTabs_cons, ih ha']
    simp [hc]

theorem splitTabs_append_tab (a rest : List Char) (h : '\t' ∉ a) :
    splitTabs (a ++ '\t' :: rest) = a :: splitTabs rest := by
  induction a with
  | nil =>
    cases hs : splitTabs rest with
    | nil => exact absurd hs (splitTabs_ne_nil rest)
    | cons f fs =>
      show splitTabs ('\t' :: rest) = [] :: f :: fs
      rw [splitTabs_cons, hs]
      simp
  | cons c a' ih =>
    have hc : c ≠ '\t' := fun hce => h (hce ▸ List.mem_cons_self c a')
    have ha' : '\t' ∉ a' := fun hm => h (List.mem_cons_of_mem _ hm)
    show splitTabs (c :: (a' ++ '\t' :: rest)) = (c :: a') :: splitTabs rest
    rw [splitTabs_cons, ih ha']
    simp [hc]

theorem natChars_no_tab (n : Nat) : '\t' ∉ natChars n := by
  intro hm
  have := natChars_no_space n '\t' hm
  simp [isPySpace] at this

theorem splitTabs_formatLine (name : List Char) (s l : Nat) (h : '\t' ∉ name) :
    splitTabs (formatLine name s l) = [name, natChars s, natChars l ++ ['\n']] := by
  unfold formatLine
  rw [splitTabs_append_tab _ _ h, splitTabs_append_tab _ _ (natChars_no_tab s)]
  rw [splitTabs_no_tab]
  intro hm
  rcases List.mem_append.mp hm with h1 | h1
  · exact natChars_no_tab l h1
  · simp at h1

/-- C7: IndexCodec round trip.  For every name free of tabs and newlines
and all natural `start` and `length`, formatting produces exactly
`name TAB start TAB length NEWLINE` and parsing that line returns exactly
`(name, start, length)`; parsing returns no value on a line whose
tab-separated field count differs from 3 or whose start or length field is
not an integer. -/
theorem indexCodec_roundtrip :
    (∀ (name : List Char) (s l : Nat), '\t' ∉ name → '\n' ∉ name →
      formatLine name s l = name ++ '\t' :: (natChars s ++ '\t' :: (natChars l ++ ['\n'])) ∧
      parseLine (formatLine name s l) = some (name, (s : Int), (l : Int))) ∧
    (∀ line : List Char, (splitTabs line).length ≠ 3 → parseLine line = none) ∧
    (∀ (line nf sf lf : List Char), splitTabs line = [nf, sf, lf] →
      pyInt sf = none ∨ pyInt lf = none → parseLine line = none) := by
  refine ⟨?_, ?_, ?_⟩
  · intro name s l ht _
    refine ⟨rfl, ?_⟩
    unfold parseLine
    rw [splitTabs_formatLine name s l ht]
    show (match pyInt (natChars s), pyInt (natChars l ++ ['\n']) with
      | some sv, some lv => some (name, sv, lv)
      | _, _ => none) = some (name, (s : Int), (l : Int))
    rw [pyInt_natChars s, pyInt_natChars_newline l]
  · intro line h
    unfold parseLine
    cases h0 : splitTabs line with
    | nil => rfl
    | cons a t =>
      cases t with
      | nil => rfl
      | cons b t2 =>
        cases t2 with
        | nil => rfl
        | cons c t3 =>
          cases t3 with
          | nil => exact absurd (by rw [h0]; rfl) h
          | cons d t4 => rfl
  · intro line nf sf lf h0 hbad
    unfold parseLine
    rw [h0]
    show (match pyInt sf, pyInt lf with
      | some sv, some lv => some (nf, sv, lv)
      | _, _ => none) = none
    rcases hbad with hb | hb
    · rw [hb]
    · rw [hb]
      cases pyInt sf <;> rfl

theorem indexCodec_roundtrip_witness :
    ('\t' ∉ ['a', 'b'] ∧ '\n' ∉ ['a', 'b'] ∧
      parseLine (formatLine ['a', 'b'] 5 12) = some (['a', 'b'], (5 : Int), (12 : Int))) ∧
    (splitTabs ['a', '\t', '3'] ≠ [] ∧ (splitTabs ['a', '\t', '3']).length ≠ 3 ∧
      parseLine ['a', '\t', '3'] = none) ∧
    (splitTabs ['a', '\t', 'x', '\t', '3'] = [['a'], ['x'], ['3']] ∧
      pyInt ['x'] = none ∧ parseLine ['a', '\t', 'x', '\t', '3'] = none) := by
  refine ⟨⟨by decide, by decide, ?_⟩, ⟨by decide, by decide, ?_⟩, ⟨by decide, by decide, ?_⟩⟩
  · exact (indexCodec_roundtrip.1 ['a', 'b'] 5 12 (by decide) (by decide)).2
  · exact indexCodec_roundtrip.2.1 ['a', '\t', '3'] (by decide)
  · exact indexCodec_roundtrip.2.2 ['a', '\t', 'x', '\t', '3'] ['a'] ['x'] ['3']
      (by decide) (Or.inl (by decide))

/-! ## Reindexer naming policy -/

theorem length_le_maxLen : ∀ (hs : List (List Char)) (h : List Char), h ∈ hs →
    h.length ≤ maxLen hs := by
  intro hs
  induction hs with
  | nil => intro h hm; cases hm
  | cons e rest ih =>
    intro h hm
    show h.length ≤ max e.length (maxLen rest)
    rcases List.mem_cons.mp hm with rfl | hm
    · exact le_max_left _ _
    · exact le_trans (ih h hm) (le_max_right _ _)

theorem freshenFuel_not_mem : ∀ (k : Nat) (hs : List (List Char)) (h : List Char),
    maxLen hs + 1 - h.length < k → freshenFuel k hs h ∉ hs := by
  intro k
  induction k with
  | zero => intro hs h hk; omega
  | succ k ih =>
    intro hs h hk
    show (if h ∈ hs then freshenFuel k hs (h ++ ['^']) else h) ∉ hs
    by_cases hm : h ∈ hs
    · rw [if_pos hm]
      apply ih
      have := length_le_maxLen hs h hm
      simp only [List.length_append, List.length_cons, List.length_nil]
      omega
    · rw [if_neg hm]
      exact hm

theorem freshen_not_mem (hs : List (List Char)) (h : List Char) : freshen hs h ∉ hs := by
  apply freshenFuel_not_mem
  omega

theorem freshenFuel_ne_nil : ∀ (k : Nat) (hs : List (List Char)) (h : List Char),
    h ≠ [] → freshenFuel k hs h ≠ [] := by
  intro k
  induction k with
  | zero => intro hs h hn; exact hn
  | succ k ih =>
    intro hs h hn
    show (if h ∈ hs then freshenFuel k hs (h ++ ['^']) else h) ≠ []
    by_cases hm : h ∈ hs
    · rw [if_pos hm]
      apply ih
      simp
    · rw [if_neg hm]
      exact hn

theorem freshen_ne_nil (hs : List (List Char)) (h : List Char) (hn : h ≠ []) :
    freshen hs h ≠ [] :=
  freshenFuel_ne_nil _ hs h hn

/-- Invariant of the name-parsing scan: the headers dict keys are exactly
the emitted names, all distinct and nonempty. -/
def ReInv (st : ReState) : Prop :=
  st.headers = st.out.map Prod.fst ∧ st.headers.Nodup ∧ ∀ n ∈ st.headers, n ≠ []

theorem reNamedStep_inv {allowDup : Bool} {st st' : ReState} {b : Nat}
    (hok : reNamedStep allowDup st b = .ok st') (hI : ReInv st) : ReInv st' := by
  obtain ⟨h1, h2, h3⟩ := hI
  by_cases hb : b = 0
  · rw [reNamedStep, if_pos hb] at hok
    by_cases hemp : stripMarkers st.header = []
    · rw [if_pos hemp] at hok
      cases hok
    · rw [if_neg hemp] at hok
      by_cases hdup : ¬ allowDup ∧ stripMarkers st.header ∈ st.headers
      · rw [if_pos hdup] at hok
        cases hok
      · rw [if_neg hdup] at hok
        cases hok
        refine ⟨?_, ?_, ?_⟩
        · show st.headers ++ [freshen st.headers (stripMarkers st.header)] =
            (st.out ++ [(freshen st.headers (stripMarkers st.header), st.offset, st.recLen)]).map
              Prod.fst
          rw [List.map_append, h1]
          rfl
        · show (st.headers ++ [freshen st.headers (stripMarkers st.header)]).Nodup
          rw [List.nodup_append]
          refine ⟨h2, List.nodup_singleton _, ?_⟩
          intro a ha hb2
          rw [List.mem_singleton] at hb2
          subst hb2
          exact freshen_not_mem st.headers (stripMarkers st.header) ha
        · intro n hn
          rcases List.mem_append.mp hn with hn | hn
          · exact h3 n hn
          · rw [List.mem_singleton] at hn
            subst hn
            exact freshen_ne_nil _ _ hemp
  · rw [reNamedStep, if_neg hb] at hok
    cases hok
    exact ⟨h1, h2, h3⟩

theorem reNamed_fold {allowDup : Bool} :
    ∀ (data : List Nat) (st : ReState), ReInv st →
      ∀ st', List.foldlM (reNamedStep allowDup) st data = .ok st' → ReInv st' := by
  intro data
  induction data with
  | nil =>
    intro st hI st' h
    cases h
    exact hI
  | cons b bs ih =>
    intro st hI st' h
    rw [List.foldlM_cons] at h
    cases hc : reNamedStep allowDup st b with
    | error e => rw [hc] at h; cases h
    | ok st1 =>
      rw [hc] at h
      exact ih st1 (reNamedStep_inv hc hI) st' h

/-- Data file holding two records whose header lines both read `foo`. -/
def c9Data : List Nat := [102, 111, 111, 0, 102, 111, 111, 0]

/-- C9: with name parsing enabled, a name that is empty after stripping
leading marker characters is always fatal; a duplicate derived name is
fatal when renaming is disabled; and with renaming enabled a caret is
appended until the name is fresh, so every run that completes emits
pairwise-distinct nonempty names (two `foo` records come out as `foo` and
`foo` + caret). -/
theorem reindex_naming_policy :
    (∀ (allowDup : Bool) (data : List Nat) (out : List (List Char × Nat × Nat)),
      run_reindex_named allowDup data = .ok out →
      (∀ n ∈ out.map Prod.fst, n ≠ []) ∧ (out.map Prod.fst).Nodup) ∧
    run_reindex_named false c9Data = .error "duplicate name" ∧
    run_reindex_named true c9Data =
      .ok [(['f', 'o', 'o'], 0, 4), (['f', 'o', 'o', '^'], 4, 4)] ∧
    run_reindex_named true [35, 0] = .error "empty name" ∧
    run_reindex_named false [35, 0] = .error "empty name" := by
  refine ⟨?_, rfl, rfl, rfl, rfl⟩
  intro allowDup data out h
  unfold run_reindex_named at h
  cases hfold : List.foldlM (reNamedStep allowDup) initRe data with
  | error e =>
    rw [hfold] at h
    cases h
  | ok st =>
    rw [hfold] at h
    have hout : st.out = out := by
      simpa [Except.map] using h
    have hI : ReInv st := reNamed_fold data initRe ⟨rfl, List.nodup_nil, by intro n hn; cases hn⟩
      st hfold
    obtain ⟨h1, h2, h3⟩ := hI
    rw [hout] at h1
    rw [← h1]
    exact ⟨h3, h2⟩

theorem reindex_naming_policy_witness :
    run_reindex_named true c9Data =
      .ok [(['f', 'o', 'o'], 0, 4), (['f', 'o', 'o', '^'], 4, 4)] ∧
    ((∀ n ∈ ([(['f', 'o', 'o'], 0, 4),
        (['f', 'o', 'o', '^'], 4, 4)] : List (List Char × Nat × Nat)).map Prod.fst, n ≠ []) ∧
      (([(['f', 'o', 'o'], 0, 4),
        (['f', 'o', 'o', '^'], 4, 4)] : List (List Char × Nat × Nat)).map Prod.fst).Nodup) :=
  ⟨rfl, reindex_naming_policy.1 true c9Data _ rfl⟩

end FFindexPy
